import Mathlib

/-!
Shallow embedding of `teebuff.c` (a non-blocking fan-out utility) and proofs
about its scheduler, allocator, reclamation and event loop.

Modelling conventions:
* `off_t` / `size_t` positions are `Nat`; all subtractions that the C code
  performs are only meaningful under the invariant `pos ≤ source_pos_read`,
  and theorems carry that hypothesis where it matters.
* The buffer pool mirrors the input stream: the byte stored at absolute
  offset `p` is `input.getD p 0` (a read deposits exactly the stream bytes).
  Bytes a sink writes are therefore `(input.drop pos_written).take n`.
* File descriptors are `Nat`; an fd set (`fd_set`) is a `List Nat` and
  `FD_ISSET` is `List.contains`.
* Kernel responses to `write(2)` are an oracle `Nat → WriteOutcome` indexed
  by sink position; `read(2)` byte counts and `select(2)` readiness are
  oracle fields of a per-iteration `Choice`.
* Fatal conditions (`err`/`exit`) are modelled as `Except`/sum results
  carrying the exit code.
-/

namespace Teebuff

/-- Embeds `struct sink_info` (teebuff.c:60-66).  The C fields `name` is
dropped (only used in messages); `out` is the ghost observation of the bytes
successfully handed to the kernel for this sink, i.e. the contents of the
output file. -/
structure Sink where
  fd : Nat
  pos_written : Nat
  pos_to_write : Nat
  active : Bool
  out : List UInt8
deriving DecidableEq

/-- Kernel response to one `write(2)` call: a byte count (clamped to the
requested size), a broken pipe (`errno == EPIPE`), or any other error. -/
inductive WriteOutcome where
  | ok (n : Nat)
  | epipe
  | werr
deriving DecidableEq

/-- Result of `allocate_data_to_sinks`: the updated sink list, or a fatal
`exit(1)` carrying the region size printed in the diagnostic
(teebuff.c:267-268 prints `data_to_assign - 1` and advises a larger buffer). -/
inductive AllocOut where
  | ok (sinks : List Sink)
  | fatal (code : Nat) (region : Nat)
deriving DecidableEq

/-- Result of the forward newline scan of the reliable line-mode algorithm
(teebuff.c:279-306): `found q` means the loop exited with
`pos_assigned = q`; `defer` means it hit the end of available data with no
newline recorded and the allocator returns early. -/
inductive FwdRes where
  | found (q : Nat)
  | defer
deriving DecidableEq

/-- The newline byte. -/
def nl : UInt8 := 10

/-- Backward newline scan of the efficient line-mode algorithm
(teebuff.c:258-270): starting at `lo + cnt - 1` and stepping down to `lo`,
return the first (i.e. highest) position holding a newline, or `none` when
the whole region `[lo, lo + cnt)` has none (the C code then exits fatally).
The C loop requires `cnt ≥ 1`; with `cnt = 0` it would read below `lo`. -/
def findNlBack (byteAt : Nat → UInt8) (lo : Nat) : Nat → Option Nat
  | 0 => none
  | cnt + 1 => if byteAt (lo + cnt) = nl then some (lo + cnt) else findNlBack byteAt lo cnt

/-- Forward newline scan of the reliable line-mode algorithm
(teebuff.c:279-306).  `rem` is the remaining data `source_pos_read - d`
(the C loop tests `data_end >= source_pos_read`), `d` is `data_end` and
`lastNl` is `last_nl` (`none` encodes the C sentinel `-1`).  A newline at
distance strictly greater than `data_per_sink` stops the scan at the byte
after it; exhausting the data falls back to the last recorded newline or
defers. -/
def scanFwdAux (byteAt : Nat → UInt8) (pa dps : Nat) :
    Nat → Nat → Option Nat → FwdRes
  | 0, _, lastNl =>
    match lastNl with
    | some p => .found (p + 1)
    | none => .defer
  | rem + 1, d, lastNl =>
    if byteAt d = nl then
      if dps < d - pa then .found (d + 1)
      else scanFwdAux byteAt pa dps rem (d + 1) (some d)
    else scanFwdAux byteAt pa dps rem (d + 1) lastNl

/-- Entry point of the forward scan: `data_end` starts at `pos_assigned`
with no newline recorded (teebuff.c:279-281). -/
def scanFwd (byteAt : Nat → UInt8) (pa dps spr : Nat) : FwdRes :=
  scanFwdAux byteAt pa dps (spr - pa) pa none

/-- A sink is eligible for a scatter assignment iff it is idle
(`pos_written == pos_to_write`) and its fd is in the write-ready set
(teebuff.c:224,239). -/
def eligible (fds : List Nat) (si : Sink) : Bool :=
  (si.pos_written == si.pos_to_write) && fds.contains si.fd

/-- `pos_assigned` seed: the maximum `pos_to_write` over all sinks,
starting from 0 (teebuff.c:206,222-223). -/
def posAssigned0 (files : List Sink) : Nat :=
  files.foldl (fun a si => max a si.pos_to_write) 0

/-- `available_sinks`: the number of idle, write-ready sinks
(teebuff.c:224-225). -/
def availableSinks (fds : List Nat) (files : List Sink) : Nat :=
  (files.filter (eligible fds)).length

/-- `data_to_assign` update at an eligible sink (teebuff.c:240-244): the C
code tests `data_to_assign == 0` — intended as "this is the first eligible
file, it also gets the remainder bytes" — and otherwise assigns
`data_per_sink`. -/
def nextDta (avs ad dps dta0 : Nat) : Nat :=
  if dta0 = 0 then dps + ad % avs else dps

/-- The assignment loop of `allocate_data_to_sinks` (teebuff.c:238-315),
threading `pos_assigned` (`pa`) and `data_to_assign` (`dta0`) through the
sinks in registration order.  The parameters `avs`, `ad`, `dps` are the
loop-invariant `available_sinks`, `available_data`, `data_per_sink`. -/
def allocScatter (byteAt : Nat → UInt8) (ol : Bool) (B spr : Nat) (fds : List Nat)
    (avs ad dps : Nat) : List Sink → Nat → Nat → AllocOut
  | [], _, _ => .ok []
  | si :: rest, pa, dta0 =>
    if eligible fds si then
      if ol then
        if B / 2 < ad then
          match findNlBack byteAt pa (nextDta avs ad dps dta0) with
          | none => .fatal 1 (nextDta avs ad dps dta0 - 1)
          | some p =>
            match allocScatter byteAt ol B spr fds avs ad dps rest (p + 1)
                (nextDta avs ad dps dta0) with
            | .ok rest' => .ok ({ si with pos_written := pa, pos_to_write := p + 1 } :: rest')
            | .fatal c r => .fatal c r
        else
          match scanFwd byteAt pa dps spr with
          | .defer => .ok ({ si with pos_written := pa, pos_to_write := pa } :: rest)
          | .found q =>
            match allocScatter byteAt ol B spr fds avs ad dps rest q
                (nextDta avs ad dps dta0) with
            | .ok rest' => .ok ({ si with pos_written := pa, pos_to_write := q } :: rest')
            | .fatal c r => .fatal c r
      else
        match allocScatter byteAt ol B spr fds avs ad dps rest
            (pa + nextDta avs ad dps dta0) (nextDta avs ad dps dta0) with
        | .ok rest' =>
          .ok ({ si with pos_written := pa, pos_to_write := pa + nextDta avs ad dps dta0 } :: rest')
        | .fatal c r => .fatal c r
    else
      match allocScatter byteAt ol B spr fds avs ad dps rest pa dta0 with
      | .ok rest' => .ok (si :: rest')
      | .fatal c r => .fatal c r

/-- `allocate_data_to_sinks` (teebuff.c:201-316).  Replicate mode sets
every sink's `pos_to_write` to `source_pos_read` (teebuff.c:211-214);
scatter mode computes the high-water mark, counts eligible sinks, returns
unchanged when there are none, then runs the assignment loop. -/
def allocate_data_to_sinks (os ol : Bool) (B : Nat) (byteAt : Nat → UInt8)
    (spr : Nat) (fds : List Nat) (files : List Sink) : AllocOut :=
  if os = false then
    .ok (files.map fun si => { si with pos_to_write := spr })
  else
    let pa := posAssigned0 files
    let avs := availableSinks fds files
    if avs = 0 then .ok files
    else allocScatter byteAt ol B spr fds avs (spr - pa) ((spr - pa) / avs) files pa 0

/-- `sink_buffer(si).size` (teebuff.c:148-163): the window to write is
bounded by the end of the current pool chunk and by the assigned upper
bound. -/
def sink_buffer_size (B : Nat) (si : Sink) : Nat :=
  min (B - si.pos_written % B) (si.pos_to_write - si.pos_written)

/-- The write loop of `sink_write` (teebuff.c:332-359): each sink whose fd
is in the ready set gets exactly one `write(2)` of its `sink_buffer`
window; the issued `(fd, size)` pairs are recorded in order.  A successful
count advances `pos_written` (and appends the bytes to the ghost output);
`EPIPE` clears `active`; any other error is fatal with exit code 2.
`i` indexes the kernel's per-sink outcome oracle. -/
def sinkWriteGo (input : List UInt8) (B : Nat) (fds : List Nat)
    (ocs : Nat → WriteOutcome) : List Sink → Nat →
    Except Nat (List Sink × Nat × List (Nat × Nat))
  | [], _ => .ok ([], 0, [])
  | si :: rest, i =>
    if fds.contains si.fd then
      match ocs i with
      | .ok n =>
        match sinkWriteGo input B fds ocs rest (i + 1) with
        | .ok (rest', w, iss) =>
          let n' := min n (sink_buffer_size B si)
          .ok ({ si with pos_written := si.pos_written + n',
                         out := si.out ++ (input.drop si.pos_written).take n' } :: rest',
               w + n', (si.fd, sink_buffer_size B si) :: iss)
        | .error c => .error c
      | .epipe =>
        match sinkWriteGo input B fds ocs rest (i + 1) with
        | .ok (rest', w, iss) =>
          .ok ({ si with active := false } :: rest', w, (si.fd, sink_buffer_size B si) :: iss)
        | .error c => .error c
      | .werr => .error 2
    else
      match sinkWriteGo input B fds ocs rest (i + 1) with
      | .ok (rest', w, iss) => .ok (si :: rest', w, iss)
      | .error c => .error c

/-- The reclamation watermark of `sink_write` (teebuff.c:328,360-361):
`min_pos` starts at `source_pos_read` and is lowered to each active sink's
(post-write) `pos_written`; inactive sinks are skipped. -/
def minPosOf (spr : Nat) (sinks : List Sink) : Nat :=
  sinks.foldl (fun m si => if si.active then min m si.pos_written else m) spr

/-- `memory_free(pos)` (teebuff.c:106-122) frees pool chunks
`[pool_begin, pos / buffer_size)`; this returns the freed chunk indices. -/
def memory_free (B pool_begin pos : Nat) : List Nat :=
  List.range' pool_begin (pos / B - pool_begin)

/-- Aggregate result of one `sink_write` pass: updated sinks, total bytes
written, the watermark handed to `memory_free`, and the issued writes. -/
structure SWOut where
  sinks : List Sink
  written : Nat
  minPos : Nat
  issued : List (Nat × Nat)
deriving DecidableEq

/-- `sink_write` (teebuff.c:324-365): allocate fresh data to sinks, run the
write loop over the ready set, then compute the reclamation watermark and
free memory below it.  A fatal condition carries the process exit code. -/
def sink_write (os ol : Bool) (B : Nat) (input : List UInt8) (spr : Nat)
    (fds : List Nat) (ocs : Nat → WriteOutcome) (files : List Sink) :
    Except Nat SWOut :=
  match allocate_data_to_sinks os ol B (fun p => input.getD p 0) spr fds files with
  | .fatal c _ => .error c
  | .ok files1 =>
    match sinkWriteGo input B fds ocs files1 0 with
    | .error c => .error c
    | .ok (files2, w, iss) => .ok ⟨files2, w, minPosOf spr files2, iss⟩

/-- One iteration's oracle: the readiness reported by `select(2)` for stdin
and for each sink fd, the kernel's write outcomes by sink position, and the
byte count the kernel hands to `read(2)` (clamped by the model). -/
structure Choice where
  srcReady : Bool
  sinkReady : Nat → Bool
  ocs : Nat → WriteOutcome
  readAmount : Nat

/-- Event-loop state (teebuff.c:374-461): the read frontier
`source_pos_read`, the EOF latch, and the sinks. -/
structure LoopSt where
  spr : Nat
  eof : Bool
  sinks : List Sink
deriving DecidableEq

/-- The fds the event loop watches for writability: active sinks with
pending bytes (teebuff.c:433-437). -/
def watchedFds (spr : Nat) (sinks : List Sink) : List Nat :=
  (sinks.filter fun si => decide (si.pos_written < spr) && si.active).map (fun si => si.fd)

/-- The byte count one `source_read` deposits (teebuff.c:181-195): the
kernel's choice clamped to the current chunk window `B - spr % B`
(teebuff.c:128-143) and to the bytes remaining on stdin; it is zero
exactly at end of input (given a positive kernel choice). -/
def readCount (B spr len ra : Nat) : Nat :=
  min ra (min (B - spr % B) (len - spr))

/-- One iteration of the event loop (teebuff.c:420-461).  `error (c, s)`
means the process exits with status `c` in state `s`; `ok s'` continues.
Order follows the C: termination test, select (readiness filtered by the
oracle), one write pass (skip the read when it made progress), then one
read; a zero-byte read latches `eof`. -/
def loopStep (os ol : Bool) (B : Nat) (input : List UInt8) (c : Choice)
    (s : LoopSt) : Except (Nat × LoopSt) LoopSt :=
  if s.eof && (watchedFds s.spr s.sinks).isEmpty then .error (0, s)
  else
    match sink_write os ol B input s.spr ((watchedFds s.spr s.sinks).filter c.sinkReady)
        c.ocs s.sinks with
    | .error code => .error (code, s)
    | .ok r =>
      if 0 < r.written then .ok ⟨s.spr, s.eof, r.sinks⟩
      else if c.srcReady && !s.eof then
        if readCount B s.spr input.length c.readAmount = 0 then .ok ⟨s.spr, true, r.sinks⟩
        else .ok ⟨s.spr + readCount B s.spr input.length c.readAmount, s.eof, r.sinks⟩
      else .ok ⟨s.spr, s.eof, r.sinks⟩

/-- The effect of one iteration of the write loop on one sink (the body of
teebuff.c:332-359, assuming the outcome is not a fatal error): a ready sink
advances by the clamped byte count or goes inactive on `EPIPE`; a sink
whose fd is not ready is untouched. -/
def procSink (input : List UInt8) (B : Nat) (fds : List Nat)
    (oc : WriteOutcome) (si : Sink) : Sink :=
  if fds.contains si.fd then
    match oc with
    | .ok n =>
      { si with pos_written := si.pos_written + min n (sink_buffer_size B si),
                out := si.out ++ (input.drop si.pos_written).take (min n (sink_buffer_size B si)) }
    | .epipe => { si with active := false }
    | .werr => si
  else si

/-- Replicate-mode loop invariant: the read frontier stays within the
input, EOF is only latched at the end of the input, and every sink's
delivered bytes are exactly the input prefix below its `pos_written`,
with `pos_written ≤ pos_to_write ≤ source_pos_read`. -/
def InvR (input : List UInt8) (s : LoopSt) : Prop :=
  s.spr ≤ input.length ∧ (s.eof = true → s.spr = input.length) ∧
  ∀ si ∈ s.sinks, si.out = input.take si.pos_written ∧
    si.pos_written ≤ si.pos_to_write ∧ si.pos_to_write ≤ s.spr

/-- Initial loop state: every output file starts at position 0, active,
with nothing written (teebuff.c:407-414). -/
def initSt (fds : List Nat) : LoopSt :=
  ⟨0, false, fds.map fun f => ⟨f, 0, 0, true, []⟩⟩

/-- Run the event loop under a finite oracle trace; `none` when the trace
is exhausted before the loop exits, otherwise the exit status and final
state. -/
def runLoop (os ol : Bool) (B : Nat) (input : List UInt8) :
    List Choice → LoopSt → Option (Nat × LoopSt)
  | [], _ => none
  | c :: cs, s =>
    match loopStep os ol B input c s with
    | .error r => some r
    | .ok s' => runLoop os ol B input cs s'

/-! ## Lemmas about the reclamation watermark fold -/

theorem minPosOf_cons (m : Nat) (si : Sink) (l : List Sink) :
    minPosOf m (si :: l) = minPosOf (if si.active then min m si.pos_written else m) l := rfl

theorem minPosOf_le_init (l : List Sink) : ∀ m : Nat, minPosOf m l ≤ m := by
  induction l with
  | nil => intro m; exact Nat.le_refl m
  | cons si l ih =>
    intro m
    rw [minPosOf_cons]
    refine (ih _).trans ?_
    split
    · exact Nat.min_le_left _ _
    · exact Nat.le_refl m

theorem minPosOf_le_mem (l : List Sink) : ∀ (m : Nat) (si : Sink), si ∈ l →
    si.active = true → minPosOf m l ≤ si.pos_written := by
  induction l with
  | nil => intro m si h; exact absurd h (List.not_mem_nil si)
  | cons sj l ih =>
    intro m si h ha
    rw [minPosOf_cons]
    rcases List.mem_cons.mp h with rfl | hmem
    · rw [ha, if_pos rfl]
      exact (minPosOf_le_init l _).trans (Nat.min_le_right _ _)
    · exact ih _ si hmem ha

theorem minPosOf_attained (l : List Sink) : ∀ m : Nat,
    minPosOf m l = m ∨ ∃ si ∈ l, si.active = true ∧ si.pos_written = minPosOf m l := by
  induction l with
  | nil => intro m; exact Or.inl rfl
  | cons sj l ih =>
    intro m
    rw [minPosOf_cons]
    rcases ih (if sj.active then min m sj.pos_written else m) with heq | ⟨si, hmem, ha, hpw⟩
    · rw [heq]
      by_cases hact : sj.active
      · rw [if_pos hact]
        rcases Nat.le_total m sj.pos_written with hle | hle
        · exact Or.inl (Nat.min_eq_left hle)
        · exact Or.inr ⟨sj, List.mem_cons_self _ _, hact, (Nat.min_eq_right hle).symm⟩
      · rw [if_neg hact]; exact Or.inl rfl
    · exact Or.inr ⟨si, List.mem_cons_of_mem _ hmem, ha, hpw⟩

theorem minPosOf_filter_active (l : List Sink) : ∀ m : Nat,
    minPosOf m l = minPosOf m (l.filter fun si => si.active) := by
  induction l with
  | nil => intro m; rfl
  | cons sj l ih =>
    intro m
    rw [minPosOf_cons]
    by_cases hact : sj.active
    · rw [List.filter_cons_of_pos hact, minPosOf_cons, if_pos hact]
      exact ih _
    · rw [List.filter_cons_of_neg (by simpa using hact), if_neg hact]
      exact ih _

/-! ## Lemmas about the write loop -/

theorem sinkWriteGo_error_two (input : List UInt8) (B : Nat) (fds : List Nat)
    (ocs : Nat → WriteOutcome) : ∀ (sinks : List Sink) (i0 c : Nat),
    sinkWriteGo input B fds ocs sinks i0 = .error c → c = 2 := by
  intro sinks
  induction sinks with
  | nil => intro i0 c h; simp [sinkWriteGo] at h
  | cons si rest ih =>
    intro i0 c h
    rw [sinkWriteGo] at h
    by_cases hfd : fds.contains si.fd
    · rw [if_pos hfd] at h
      cases hoc : ocs i0 <;> rw [hoc] at h
      · rcases hrec : sinkWriteGo input B fds ocs rest (i0 + 1) with c' | ⟨rest', w, iss⟩ <;>
          rw [hrec] at h
        · cases h; exact ih (i0 + 1) c hrec
        · cases h
      · rcases hrec : sinkWriteGo input B fds ocs rest (i0 + 1) with c' | ⟨rest', w, iss⟩ <;>
          rw [hrec] at h
        · cases h; exact ih (i0 + 1) c hrec
        · cases h
      · cases h; rfl
    · rw [if_neg hfd] at h
      rcases hrec : sinkWriteGo input B fds ocs rest (i0 + 1) with c' | ⟨rest', w, iss⟩ <;>
        rw [hrec] at h
      · cases h; exact ih (i0 + 1) c hrec
      · cases h

theorem sinkWriteGo_ok_pointwise (input : List UInt8) (B : Nat) (fds : List Nat)
    (ocs : Nat → WriteOutcome) (hw : ∀ j, ocs j ≠ .werr) :
    ∀ (sinks : List Sink) (i0 : Nat), ∃ res w iss,
      sinkWriteGo input B fds ocs sinks i0 = .ok (res, w, iss) ∧
      res.length = sinks.length ∧
      (∀ k, res.get? k = (sinks.get? k).map fun si => procSink input B fds (ocs (i0 + k)) si) ∧
      iss = (sinks.filter fun si => fds.contains si.fd).map fun si =>
        (si.fd, sink_buffer_size B si) := by
  intro sinks
  induction sinks with
  | nil => exact fun i0 => ⟨[], 0, [], rfl, rfl, fun k => rfl, rfl⟩
  | cons si rest ih =>
    intro i0
    obtain ⟨res, w, iss, hrec, hlen, hpt, hiss⟩ := ih (i0 + 1)
    by_cases hfd : fds.contains si.fd
    · cases hoc : ocs i0 with
      | ok n =>
        refine ⟨_, _, _, by rw [sinkWriteGo, if_pos hfd, hoc, hrec], by simpa using hlen,
          ?_, ?_⟩
        · intro k
          cases k with
          | zero =>
            show some _ = some (procSink input B fds (ocs (i0 + 0)) si)
            have hm : si.fd ∈ fds := by simpa using hfd
            simp [procSink, hm, hoc]
          | succ k =>
            show res.get? k = _
            rw [hpt k]
            have : i0 + 1 + k = i0 + (k + 1) := by omega
            rw [this]
            rfl
        · have hm : si.fd ∈ fds := by simpa using hfd
          simp [List.filter_cons, hm, hiss]
      | epipe =>
        refine ⟨_, _, _, by rw [sinkWriteGo, if_pos hfd, hoc, hrec], by simpa using hlen,
          ?_, ?_⟩
        · intro k
          cases k with
          | zero =>
            show some _ = some (procSink input B fds (ocs (i0 + 0)) si)
            have hm : si.fd ∈ fds := by simpa using hfd
            simp [procSink, hm, hoc]
          | succ k =>
            show res.get? k = _
            rw [hpt k]
            have : i0 + 1 + k = i0 + (k + 1) := by omega
            rw [this]
            rfl
        · have hm : si.fd ∈ fds := by simpa using hfd
          simp [List.filter_cons, hm, hiss]
      | werr => exact absurd hoc (hw i0)
    · refine ⟨_, _, _, by rw [sinkWriteGo, if_neg hfd, hrec], by simpa using hlen, ?_, ?_⟩
      · intro k
        cases k with
        | zero =>
          show some si = some (procSink input B fds (ocs (i0 + 0)) si)
          have hm : ¬ si.fd ∈ fds := by simpa using hfd
          simp [procSink, hm]
        | succ k =>
          show res.get? k = _
          rw [hpt k]
          have : i0 + 1 + k = i0 + (k + 1) := by omega
          rw [this]
          rfl
      · have hm : ¬ si.fd ∈ fds := by simpa using hfd
        simp [List.filter_cons, hm, hiss]

theorem sinkWriteGo_werr_fatal (input : List UInt8) (B : Nat) (fds : List Nat)
    (ocs : Nat → WriteOutcome) :
    ∀ (sinks : List Sink) (i0 i : Nat) (si : Sink),
      sinks.get? i = some si → fds.contains si.fd = true → ocs (i0 + i) = .werr →
      sinkWriteGo input B fds ocs sinks i0 = .error 2 := by
  intro sinks
  induction sinks with
  | nil => intro i0 i si h; simp at h
  | cons sj rest ih =>
    intro i0 i si hget hfd hoc
    cases i with
    | zero =>
      have hsj : sj = si := by simpa using hget
      subst hsj
      rw [sinkWriteGo, if_pos hfd]
      rw [Nat.add_zero] at hoc
      rw [hoc]
    | succ k =>
      have hrec : sinkWriteGo input B fds ocs rest (i0 + 1) = .error 2 := by
        refine ih (i0 + 1) k si (by simpa using hget) hfd ?_
        have : i0 + 1 + k = i0 + (k + 1) := by omega
        rw [this]; exact hoc
      rw [sinkWriteGo]
      by_cases hfd' : fds.contains sj.fd
      · rw [if_pos hfd']
        cases hoc' : ocs i0
        · rw [hrec]
        · rw [hrec]
        · rfl
      · rw [if_neg hfd', hrec]

/-! ## Lemmas about the scatter assignment loop -/

theorem allocScatter_skip (byteAt : Nat → UInt8) (ol : Bool) (B spr : Nat) (fds : List Nat)
    (avs ad dps : Nat) :
    ∀ (pre : List Sink), (∀ s ∈ pre, eligible fds s = false) →
    ∀ (sinks : List Sink) (pa dta0 : Nat),
      allocScatter byteAt ol B spr fds avs ad dps (pre ++ sinks) pa dta0 =
        match allocScatter byteAt ol B spr fds avs ad dps sinks pa dta0 with
        | .ok res => .ok (pre ++ res)
        | .fatal c r => .fatal c r := by
  intro pre
  induction pre with
  | nil =>
    intro _ sinks pa dta0
    simp only [List.nil_append]
    cases allocScatter byteAt ol B spr fds avs ad dps sinks pa dta0 <;> rfl
  | cons s pre ih =>
    intro hpre sinks pa dta0
    have hs : ¬ eligible fds s = true := by
      simp [hpre s (List.mem_cons_self _ _)]
    rw [List.cons_append, allocScatter, if_neg hs,
      ih (fun x hx => hpre x (List.mem_cons_of_mem _ hx)) sinks pa dta0]
    cases allocScatter byteAt ol B spr fds avs ad dps sinks pa dta0 <;> rfl

theorem allocScatter_preserves_noneligible (byteAt : Nat → UInt8) (ol : Bool)
    (B spr : Nat) (fds : List Nat) (avs ad dps : Nat) :
    ∀ (sinks : List Sink) (pa dta0 : Nat) (res : List Sink),
      allocScatter byteAt ol B spr fds avs ad dps sinks pa dta0 = .ok res →
      ∀ (i : Nat) (si : Sink), sinks.get? i = some si → eligible fds si = false →
        res.get? i = some si := by
  intro sinks
  induction sinks with
  | nil => intro pa dta0 res h i si hget; simp at hget
  | cons sj rest ih =>
    intro pa dta0 res h i si hget hne
    rw [allocScatter] at h
    by_cases hel : eligible fds sj
    · have hij : ∀ (rest' : List Sink) (sj' : Sink), res = sj' :: rest' →
          (∀ k sk, rest.get? k = some sk → eligible fds sk = false → rest'.get? k = some sk) →
          res.get? i = some si := by
        intro rest' sj' hres hrest
        cases i with
        | zero =>
          have : sj = si := by simpa using hget
          rw [← this] at hne
          rw [hne] at hel
          cases hel
        | succ k =>
          rw [hres]
          exact hrest k si (by simpa using hget) hne
      rw [if_pos hel] at h
      split at h
      · split at h
        · split at h
          · cases h
          · split at h
            · rename_i p hfb rest' hrec
              refine hij rest' _ (Eq.symm (by injection h)) ?_
              intro k sk hk hkne
              exact ih _ _ rest' hrec k sk hk hkne
            · cases h
        · split at h
          · rename_i hscan
            have h' : res = { sj with pos_written := pa, pos_to_write := pa } :: rest := by
              injection h with h2
              exact h2.symm
            refine hij rest _ h' ?_
            intro k sk hk _
            exact hk
          · split at h
            · rename_i q hscan rest' hrec
              refine hij rest' _ (Eq.symm (by injection h)) ?_
              intro k sk hk hkne
              exact ih _ _ rest' hrec k sk hk hkne
            · cases h
      · split at h
        · rename_i rest' hrec
          refine hij rest' _ (Eq.symm (by injection h)) ?_
          intro k sk hk hkne
          exact ih _ _ rest' hrec k sk hk hkne
        · cases h
    · rw [if_neg hel] at h
      split at h
      · rename_i rest' hrec
        cases i with
        | zero =>
          have : sj = si := by simpa using hget
          injection h with h'
          rw [← h', ← this]
          rfl
        | succ k =>
          injection h with h'
          rw [← h']
          exact ih _ _ rest' hrec k si (by simpa using hget) hne
      · cases h

theorem allocScatter_reliable_ok (byteAt : Nat → UInt8) (B spr : Nat) (fds : List Nat)
    (avs ad dps : Nat) (had : ¬ B / 2 < ad) :
    ∀ (sinks : List Sink) (pa dta0 : Nat), ∃ res,
      allocScatter byteAt true B spr fds avs ad dps sinks pa dta0 = .ok res := by
  intro sinks
  induction sinks with
  | nil => intro pa dta0; exact ⟨[], rfl⟩
  | cons sj rest ih =>
    intro pa dta0
    rw [allocScatter]
    by_cases hel : eligible fds sj
    · rw [if_pos hel, if_pos rfl, if_neg had]
      cases hscan : scanFwd byteAt pa dps spr with
      | defer => exact ⟨_, rfl⟩
      | found q =>
        obtain ⟨res, hres⟩ := ih q (nextDta avs ad dps dta0)
        refine ⟨{ sj with pos_written := pa, pos_to_write := q } :: res, ?_⟩
        simp only [hres]
    · rw [if_neg hel]
      obtain ⟨res, hres⟩ := ih pa dta0
      rw [hres]
      exact ⟨_, rfl⟩

/-! ## Characterization of the newline scans -/

theorem findNlBack_none (byteAt : Nat → UInt8) (lo : Nat) :
    ∀ cnt : Nat, (∀ q, lo ≤ q → q < lo + cnt → byteAt q ≠ nl) →
      findNlBack byteAt lo cnt = none := by
  intro cnt
  induction cnt with
  | zero => intro _; rfl
  | succ c ih =>
    intro h
    rw [findNlBack, if_neg (h (lo + c) (Nat.le_add_right _ _) (by omega))]
    exact ih fun q h1 h2 => h q h1 (by omega)

theorem findNlBack_last (byteAt : Nat → UInt8) (lo : Nat) :
    ∀ (cnt p : Nat), lo ≤ p → p < lo + cnt → byteAt p = nl →
      (∀ q, p < q → q < lo + cnt → byteAt q ≠ nl) →
      findNlBack byteAt lo cnt = some p := by
  intro cnt
  induction cnt with
  | zero => intro p h1 h2; omega
  | succ c ih =>
    intro p h1 h2 h3 h4
    by_cases hp : lo + c = p
    · rw [findNlBack, hp, if_pos h3]
    · have hlt : p < lo + c := by omega
      rw [findNlBack, if_neg (h4 (lo + c) hlt (by omega))]
      exact ih p h1 hlt h3 fun q hq1 hq2 => h4 q hq1 (by omega)

theorem scanFwdAux_no_nl_defer (byteAt : Nat → UInt8) (pa dps : Nat) :
    ∀ (rem d : Nat), (∀ q, d ≤ q → q < d + rem → byteAt q ≠ nl) →
      scanFwdAux byteAt pa dps rem d none = .defer := by
  intro rem
  induction rem with
  | zero => intro d _; rfl
  | succ r ih =>
    intro d h
    rw [scanFwdAux, if_neg (h d (Nat.le_refl d) (by omega))]
    exact ih (d + 1) fun q h1 h2 => h q (by omega) (by omega)

theorem scanFwdAux_no_nl_last (byteAt : Nat → UInt8) (pa dps p : Nat) :
    ∀ (rem d : Nat), (∀ q, d ≤ q → q < d + rem → byteAt q ≠ nl) →
      scanFwdAux byteAt pa dps rem d (some p) = .found (p + 1) := by
  intro rem
  induction rem with
  | zero => intro d _; rfl
  | succ r ih =>
    intro d h
    rw [scanFwdAux, if_neg (h d (Nat.le_refl d) (by omega))]
    exact ih (d + 1) fun q h1 h2 => h q (by omega) (by omega)

theorem scanFwdAux_stop (byteAt : Nat → UInt8) (pa dps p : Nat) :
    ∀ (rem d : Nat) (ln : Option Nat), d ≤ p → p < d + rem → byteAt p = nl →
      dps < p - pa →
      (∀ q, d ≤ q → q < p → ¬(byteAt q = nl ∧ dps < q - pa)) →
      scanFwdAux byteAt pa dps rem d ln = .found (p + 1) := by
  intro rem
  induction rem with
  | zero => intro d ln h1 h2; omega
  | succ r ih =>
    intro d ln h1 h2 h3 h4 h5
    by_cases hd : d = p
    · subst hd
      rw [scanFwdAux, if_pos h3, if_pos h4]
    · have hlt : d < p := by omega
      by_cases hb : byteAt d = nl
      · have hnd : ¬ dps < d - pa := fun hc => h5 d (Nat.le_refl d) hlt ⟨hb, hc⟩
        rw [scanFwdAux, if_pos hb, if_neg hnd]
        exact ih (d + 1) (some d) (by omega) (by omega) h3 h4
          fun q hq1 hq2 => h5 q (by omega) hq2
      · rw [scanFwdAux, if_neg hb]
        exact ih (d + 1) ln (by omega) (by omega) h3 h4
          fun q hq1 hq2 => h5 q (by omega) hq2

theorem scanFwdAux_exhaust (byteAt : Nat → UInt8) (pa dps p : Nat) :
    ∀ (rem d : Nat) (ln : Option Nat), d ≤ p → p < d + rem → byteAt p = nl →
      (∀ q, d ≤ q → q < d + rem → byteAt q = nl → ¬ dps < q - pa) →
      (∀ q, p < q → q < d + rem → byteAt q ≠ nl) →
      scanFwdAux byteAt pa dps rem d ln = .found (p + 1) := by
  intro rem
  induction rem with
  | zero => intro d ln h1 h2; omega
  | succ r ih =>
    intro d ln h1 h2 h3 hstop hlast
    by_cases hb : byteAt d = nl
    · have hnd : ¬ dps < d - pa := hstop d (Nat.le_refl d) (by omega) hb
      rw [scanFwdAux, if_pos hb, if_neg hnd]
      by_cases hd : d = p
      · subst hd
        exact scanFwdAux_no_nl_last byteAt pa dps d r (d + 1)
          fun q hq1 hq2 => hlast q (by omega) (by omega)
      · have hlt : d < p := by omega
        exact ih (d + 1) (some d) (by omega) (by omega) h3
          (fun q hq1 hq2 hq3 => hstop q (by omega) (by omega) hq3)
          (fun q hq1 hq2 => hlast q hq1 (by omega))
    · have hd : d ≠ p := fun hc => hb (hc ▸ h3)
      rw [scanFwdAux, if_neg hb]
      exact ih (d + 1) ln (by omega) (by omega) h3
        (fun q hq1 hq2 hq3 => hstop q (by omega) (by omega) hq3)
        (fun q hq1 hq2 => hlast q hq1 (by omega))

theorem availableSinks_pos (fds : List Nat) (pre rest : List Sink) (si : Sink)
    (h : eligible fds si = true) : 1 ≤ availableSinks fds (pre ++ si :: rest) := by
  have hmem : si ∈ (pre ++ si :: rest).filter (eligible fds) :=
    List.mem_filter.mpr ⟨by simp, h⟩
  exact List.length_pos_of_mem hmem

/-! ## Lemmas about `sink_write` and the event loop -/

theorem sink_write_ok_minPos (os ol : Bool) (B : Nat) (input : List UInt8) (spr : Nat)
    (fds : List Nat) (ocs : Nat → WriteOutcome) (files : List Sink) (r : SWOut)
    (h : sink_write os ol B input spr fds ocs files = .ok r) :
    r.minPos = minPosOf spr r.sinks := by
  rw [sink_write] at h
  cases halloc : allocate_data_to_sinks os ol B (fun p => input.getD p 0) spr fds files with
  | fatal c reg => simp only [halloc] at h; cases h
  | ok files1 =>
    simp only [halloc] at h
    cases hgo : sinkWriteGo input B fds ocs files1 0 with
    | error c => simp only [hgo] at h; cases h
    | ok t =>
      obtain ⟨files2, w, iss⟩ := t
      simp only [hgo] at h
      injection h with h'
      rw [← h']

theorem sinkWriteGo_inv (input : List UInt8) (B : Nat) (fds : List Nat)
    (ocs : Nat → WriteOutcome) (spr : Nat) :
    ∀ (sinks : List Sink) (i0 : Nat) (res : List Sink) (w : Nat) (iss : List (Nat × Nat)),
      sinkWriteGo input B fds ocs sinks i0 = .ok (res, w, iss) →
      (∀ si ∈ sinks, si.out = input.take si.pos_written ∧
        si.pos_written ≤ si.pos_to_write ∧ si.pos_to_write ≤ spr) →
      ∀ si' ∈ res, si'.out = input.take si'.pos_written ∧
        si'.pos_written ≤ si'.pos_to_write ∧ si'.pos_to_write ≤ spr := by
  intro sinks
  induction sinks with
  | nil =>
    intro i0 res w iss h hpre si' hmem
    simp only [sinkWriteGo, Except.ok.injEq, Prod.mk.injEq] at h
    rw [← h.1] at hmem
    exact absurd hmem (List.not_mem_nil si')
  | cons si rest ih =>
    intro i0 res w iss h hpre si' hmem
    obtain ⟨hout, hle, hspr⟩ := hpre si (List.mem_cons_self _ _)
    have hrest : ∀ sk ∈ rest, sk.out = input.take sk.pos_written ∧
        sk.pos_written ≤ sk.pos_to_write ∧ sk.pos_to_write ≤ spr :=
      fun sk hk => hpre sk (List.mem_cons_of_mem _ hk)
    rw [sinkWriteGo] at h
    by_cases hfd : fds.contains si.fd
    · rw [if_pos hfd] at h
      cases hoc : ocs i0 with
      | ok n =>
        rw [hoc] at h
        rcases hrec : sinkWriteGo input B fds ocs rest (i0 + 1) with c | ⟨rest', w', iss'⟩ <;>
          rw [hrec] at h
        · cases h
        · simp only [Except.ok.injEq, Prod.mk.injEq] at h
          rw [← h.1] at hmem
          rcases List.mem_cons.mp hmem with rfl | hmem'
          · refine ⟨?_, ?_, hspr⟩
            · show si.out ++ _ = _
              rw [hout, ← List.take_add]
            · show si.pos_written + min n (sink_buffer_size B si) ≤ si.pos_to_write
              have hmin : min n (sink_buffer_size B si) ≤
                  si.pos_to_write - si.pos_written :=
                (Nat.min_le_right _ _).trans (Nat.min_le_right _ _)
              omega
          · exact ih (i0 + 1) rest' w' iss' hrec hrest si' hmem'
      | epipe =>
        rw [hoc] at h
        rcases hrec : sinkWriteGo input B fds ocs rest (i0 + 1) with c | ⟨rest', w', iss'⟩ <;>
          rw [hrec] at h
        · cases h
        · simp only [Except.ok.injEq, Prod.mk.injEq] at h
          rw [← h.1] at hmem
          rcases List.mem_cons.mp hmem with rfl | hmem'
          · exact ⟨hout, hle, hspr⟩
          · exact ih (i0 + 1) rest' w' iss' hrec hrest si' hmem'
      | werr =>
        rw [hoc] at h
        cases h
    · rw [if_neg hfd] at h
      rcases hrec : sinkWriteGo input B fds ocs rest (i0 + 1) with c | ⟨rest', w', iss'⟩ <;>
        rw [hrec] at h
      · cases h
      · simp only [Except.ok.injEq, Prod.mk.injEq] at h
        rw [← h.1] at hmem
        rcases List.mem_cons.mp hmem with rfl | hmem'
        · exact ⟨hout, hle, hspr⟩
        · exact ih (i0 + 1) rest' w' iss' hrec hrest si' hmem'

theorem sink_write_replicate_inv (ol : Bool) (B : Nat) (input : List UInt8) (spr : Nat)
    (fds : List Nat) (ocs : Nat → WriteOutcome) (files : List Sink) (r : SWOut)
    (h : sink_write false ol B input spr fds ocs files = .ok r)
    (hpre : ∀ si ∈ files, si.out = input.take si.pos_written ∧
      si.pos_written ≤ si.pos_to_write ∧ si.pos_to_write ≤ spr) :
    ∀ si' ∈ r.sinks, si'.out = input.take si'.pos_written ∧
      si'.pos_written ≤ si'.pos_to_write ∧ si'.pos_to_write ≤ spr := by
  rw [sink_write] at h
  have halloc : allocate_data_to_sinks false ol B (fun p => input.getD p 0) spr fds files =
      .ok (files.map fun si => { si with pos_to_write := spr }) := by
    rw [allocate_data_to_sinks, if_pos rfl]
  simp only [halloc] at h
  cases hgo : sinkWriteGo input B fds ocs
      (files.map fun si => { si with pos_to_write := spr }) 0 with
  | error c => simp only [hgo] at h; cases h
  | ok t =>
    obtain ⟨files2, w, iss⟩ := t
    simp only [hgo] at h
    injection h with h'
    rw [← h']
    have hmap : ∀ si1 ∈ files.map (fun si => { si with pos_to_write := spr }),
        si1.out = input.take si1.pos_written ∧ si1.pos_written ≤ si1.pos_to_write ∧
          si1.pos_to_write ≤ spr := by
      intro si1 hsi1
      obtain ⟨si, hmem, rfl⟩ := List.mem_map.mp hsi1
      obtain ⟨h1, h2, h3⟩ := hpre si hmem
      exact ⟨h1, h2.trans h3, Nat.le_refl spr⟩
    exact sinkWriteGo_inv input B fds ocs spr _ 0 files2 w iss hgo hmap

theorem sink_write_replicate_error (ol : Bool) (B : Nat) (input : List UInt8) (spr : Nat)
    (fds : List Nat) (ocs : Nat → WriteOutcome) (files : List Sink) (c : Nat)
    (h : sink_write false ol B input spr fds ocs files = .error c) : c = 2 := by
  rw [sink_write] at h
  have halloc : allocate_data_to_sinks false ol B (fun p => input.getD p 0) spr fds files =
      .ok (files.map fun si => { si with pos_to_write := spr }) := by
    rw [allocate_data_to_sinks, if_pos rfl]
  simp only [halloc] at h
  cases hgo : sinkWriteGo input B fds ocs
      (files.map fun si => { si with pos_to_write := spr }) 0 with
  | error c' =>
    simp only [hgo] at h
    injection h with h'
    rw [← h']
    exact sinkWriteGo_error_two input B fds ocs _ 0 c' hgo
  | ok t =>
    obtain ⟨files2, w, iss⟩ := t
    simp only [hgo] at h
    cases h

theorem loopStep_replicate_inv (ol : Bool) (B : Nat) (input : List UInt8) (c : Choice)
    (s s' : LoopSt) (hB : 1 ≤ B) (hra : 1 ≤ c.readAmount)
    (h : loopStep false ol B input c s = .ok s') (hInv : InvR input s) : InvR input s' := by
  obtain ⟨hspr, heof, hsinks⟩ := hInv
  rw [loopStep] at h
  by_cases hterm : (s.eof && (watchedFds s.spr s.sinks).isEmpty) = true
  · rw [if_pos hterm] at h; cases h
  · rw [if_neg hterm] at h
    cases hsw : sink_write false ol B input s.spr
        ((watchedFds s.spr s.sinks).filter c.sinkReady) c.ocs s.sinks with
    | error e => simp only [hsw] at h; cases h
    | ok r =>
      simp only [hsw] at h
      have hinv2 := sink_write_replicate_inv ol B input s.spr _ c.ocs s.sinks r hsw hsinks
      by_cases hw : 0 < r.written
      · rw [if_pos hw] at h
        injection h with h'
        rw [← h']
        exact ⟨hspr, heof, hinv2⟩
      · rw [if_neg hw] at h
        by_cases hsrc : (c.srcReady && !s.eof) = true
        · rw [if_pos hsrc] at h
          have he' : s.eof = false := by
            rcases Bool.and_eq_true_iff.mp hsrc with ⟨_, h2⟩
            simpa using h2
          by_cases hn0 : readCount B s.spr input.length c.readAmount = 0
          · rw [if_pos hn0] at h
            injection h with h'
            rw [← h']
            refine ⟨hspr, fun _ => ?_, hinv2⟩
            have hmod : s.spr % B < B := Nat.mod_lt _ (by omega)
            rw [readCount] at hn0
            show s.spr = input.length
            omega
          · rw [if_neg hn0] at h
            injection h with h'
            rw [← h']
            have hle : readCount B s.spr input.length c.readAmount ≤
                input.length - s.spr :=
              (Nat.min_le_right _ _).trans (Nat.min_le_right _ _)
            refine ⟨?_, fun hh => ?_, fun si' hmem => ?_⟩
            · show s.spr + readCount B s.spr input.length c.readAmount ≤ input.length
              omega
            · rw [show (⟨s.spr + readCount B s.spr input.length c.readAmount, s.eof,
                r.sinks⟩ : LoopSt).eof = s.eof from rfl, he'] at hh
              cases hh
            · obtain ⟨h1, h2, h3⟩ := hinv2 si' hmem
              exact ⟨h1, h2, h3.trans (Nat.le_add_right _ _)⟩
        · rw [if_neg hsrc] at h
          injection h with h'
          rw [← h']
          exact ⟨hspr, heof, hinv2⟩

theorem loopStep_replicate_exit0 (ol : Bool) (B : Nat) (input : List UInt8) (c : Choice)
    (s sF : LoopSt) (h : loopStep false ol B input c s = .error (0, sF)) :
    sF = s ∧ s.eof = true ∧ watchedFds s.spr s.sinks = [] := by
  rw [loopStep] at h
  by_cases hterm : (s.eof && (watchedFds s.spr s.sinks).isEmpty) = true
  · rw [if_pos hterm] at h
    injection h with h'
    obtain ⟨h1, h2⟩ := Prod.mk.injEq .. ▸ h'
    rcases Bool.and_eq_true_iff.mp hterm with ⟨he, hie⟩
    exact ⟨h2.symm, he, by simpa using hie⟩
  · rw [if_neg hterm] at h
    cases hsw : sink_write false ol B input s.spr
        ((watchedFds s.spr s.sinks).filter c.sinkReady) c.ocs s.sinks with
    | error e =>
      simp only [hsw] at h
      injection h with h'
      have he2 : e = 2 := sink_write_replicate_error ol B input s.spr _ c.ocs s.sinks e hsw
      have : e = 0 := congrArg Prod.fst h'
      omega
    | ok r =>
      simp only [hsw] at h
      by_cases hw : 0 < r.written
      · rw [if_pos hw] at h; cases h
      · rw [if_neg hw] at h
        by_cases hsrc : (c.srcReady && !s.eof) = true
        · rw [if_pos hsrc] at h
          by_cases hn0 : readCount B s.spr input.length c.readAmount = 0
          · rw [if_pos hn0] at h; cases h
          · rw [if_neg hn0] at h; cases h
        · rw [if_neg hsrc] at h; cases h

theorem runLoop_replicate (ol : Bool) (B : Nat) (input : List UInt8) (hB : 1 ≤ B) :
    ∀ (choices : List Choice) (s sF : LoopSt),
      (∀ c ∈ choices, 1 ≤ c.readAmount) →
      InvR input s →
      runLoop false ol B input choices s = some (0, sF) →
      InvR input sF ∧ sF.eof = true ∧ watchedFds sF.spr sF.sinks = [] := by
  intro choices
  induction choices with
  | nil => intro s sF _ _ h; cases h
  | cons c cs ih =>
    intro s sF hra hInv h
    rw [runLoop] at h
    cases hstep : loopStep false ol B input c s with
    | error r =>
      obtain ⟨code, st⟩ := r
      simp only [hstep, Option.some.injEq, Prod.mk.injEq] at h
      obtain ⟨hcode, hst⟩ := h
      rw [hcode] at hstep
      obtain ⟨h1, h2, h3⟩ := loopStep_replicate_exit0 ol B input c s st hstep
      rw [← hst, h1]
      exact ⟨hInv, h2, h3⟩
    | ok s' =>
      simp only [hstep] at h
      exact ih s' sF (fun x hx => hra x (List.mem_cons_of_mem _ hx))
        (loopStep_replicate_inv ol B input c s s' hB (hra c (List.mem_cons_self _ _)) hstep hInv) h

theorem runLoop_no_sinks_drains (os ol : Bool) (B : Nat) (input : List UInt8) (hB : 1 ≤ B) :
    ∀ (choices : List Choice) (s : LoopSt),
      (∀ c ∈ choices, c.srcReady = true ∧ 1 ≤ c.readAmount) →
      s.sinks = [] → s.spr ≤ input.length → (s.eof = true → s.spr = input.length) →
      2 * (input.length - s.spr) + (if s.eof then 1 else 2) ≤ choices.length →
      ∃ sF, runLoop os ol B input choices s = some (0, sF) ∧
        sF.spr = input.length ∧ sF.sinks = [] := by
  intro choices
  induction choices with
  | nil =>
    intro s _ _ _ _ hlen
    exfalso
    simp only [List.length_nil] at hlen
    split at hlen <;> omega
  | cons c cs ih =>
    intro s hc hs hspr heof hlen
    obtain ⟨hsrc, hra⟩ := hc c (List.mem_cons_self _ _)
    have hw : watchedFds s.spr s.sinks = [] := by rw [hs]; rfl
    have hmod : s.spr % B < B := Nat.mod_lt _ (by omega)
    rw [runLoop]
    by_cases he : s.eof = true
    · have hstep : loopStep os ol B input c s = .error (0, s) := by
        rw [loopStep, hw, he]
        rfl
      refine ⟨s, ?_, heof he, hs⟩
      rw [hstep]
    · have he' : s.eof = false := by simpa using he
      have hsw : sink_write os ol B input s.spr [] c.ocs s.sinks = .ok ⟨[], 0, s.spr, []⟩ := by
        rw [hs]
        cases os
        · rfl
        · rfl
      have hn_le : readCount B s.spr input.length c.readAmount ≤ input.length - s.spr :=
        (Nat.min_le_right _ _).trans (Nat.min_le_right _ _)
      by_cases hn0 : readCount B s.spr input.length c.readAmount = 0
      · have hend : s.spr = input.length := by
          rw [readCount] at hn0
          omega
        have hstep : loopStep os ol B input c s = .ok ⟨s.spr, true, []⟩ := by
          rw [loopStep, hw, he']
          simp only [Bool.false_and, Bool.and_false, Bool.not_false, List.filter_nil,
            List.isEmpty_nil, if_false, hsw, hsrc, hn0, Bool.true_and, Bool.and_true]
          rfl
        obtain ⟨sF, hrun, h1, h2⟩ := ih (⟨s.spr, true, []⟩ : LoopSt)
          (fun x hx => hc x (List.mem_cons_of_mem _ hx)) rfl (by simpa using hspr)
          (fun _ => by simpa using hend)
          (by simp only [List.length_cons] at hlen ⊢; rw [he'] at hlen; simp at hlen ⊢; omega)
        refine ⟨sF, ?_, h1, h2⟩
        rw [hstep]
        exact hrun
      · have hstep : loopStep os ol B input c s =
            .ok ⟨s.spr + readCount B s.spr input.length c.readAmount, false, []⟩ := by
          rw [loopStep, he', hw]
          simp only [Bool.false_and, Bool.and_false, Bool.not_false, List.filter_nil,
            List.isEmpty_nil, if_false, hsw, hsrc, hn0, Bool.true_and, Bool.and_true]
          rfl
        obtain ⟨sF, hrun, h1, h2⟩ := ih
          (⟨s.spr + readCount B s.spr input.length c.readAmount, false, []⟩ : LoopSt)
          (fun x hx => hc x (List.mem_cons_of_mem _ hx)) rfl
          (by show s.spr + readCount B s.spr input.length c.readAmount ≤ input.length; omega)
          (fun hh => by cases hh)
          (by
            show 2 * (input.length - (s.spr + readCount B s.spr input.length c.readAmount)) +
              (if false then 1 else 2) ≤ cs.length
            simp only [List.length_cons] at hlen
            rw [he'] at hlen
            simp at hlen ⊢
            have hpos : 1 ≤ readCount B s.spr input.length c.readAmount := by omega
            omega)
        refine ⟨sF, ?_, h1, h2⟩
        rw [hstep]
        exact hrun

/-! ## Claims -/

/-- Claim C1: in replicate mode (no `-s` flag), for every input byte
sequence and every number of sinks, whenever the event loop terminates
successfully (exit status 0) and no sink was lost to a broken pipe (all
sinks are still active at exit), every output sink has received exactly
the input byte sequence. -/
theorem replicate_outputs_equal_input (ol : Bool) (B : Nat) (input : List UInt8)
    (fds : List Nat) (choices : List Choice) (sF : LoopSt)
    (hB : 1 ≤ B)
    (hra : ∀ c ∈ choices, 1 ≤ c.readAmount)
    (hrun : runLoop false ol B input choices (initSt fds) = some (0, sF))
    (hact : ∀ si ∈ sF.sinks, si.active = true) :
    ∀ si ∈ sF.sinks, si.out = input := by
  have hInv0 : InvR input (initSt fds) := by
    refine ⟨Nat.zero_le _, fun hh => absurd hh (by simp [initSt]), ?_⟩
    intro si hmem
    obtain ⟨f, _, rfl⟩ := List.mem_map.mp hmem
    exact ⟨rfl, Nat.le_refl 0, Nat.le_refl 0⟩
  obtain ⟨⟨hspr, heof, hsinks⟩, heq, hwf⟩ :=
    runLoop_replicate ol B input hB choices (initSt fds) sF hra hInv0 hrun
  intro si hmem
  obtain ⟨hout, hle, hspr2⟩ := hsinks si hmem
  have hfil : (sF.sinks.filter fun si => decide (si.pos_written < sF.spr) && si.active) = [] := by
    rw [watchedFds] at hwf
    exact List.map_eq_nil_iff.mp hwf
  have hnot : ¬ (decide (si.pos_written < sF.spr) && si.active) = true := by
    intro hc
    have hm2 : si ∈ sF.sinks.filter fun si => decide (si.pos_written < sF.spr) && si.active :=
      List.mem_filter.mpr ⟨hmem, hc⟩
    rw [hfil] at hm2
    exact absurd hm2 (List.not_mem_nil si)
  have hge : ¬ si.pos_written < sF.spr := by
    intro hlt
    exact hnot (by rw [hact si hmem]; simp [hlt])
  have hpw : si.pos_written = input.length := by
    have := heof heq
    omega
  rw [hout, hpw]
  exact List.take_length input

/-- Concrete closed run instantiating C1: input `[65, 66]`, one sink on
fd 3, chunk size 4; the loop reads, writes, detects EOF and exits 0 with
the sink holding the whole input. -/
theorem replicate_outputs_equal_input_witness :
    runLoop false false 4 [65, 66]
      [⟨true, fun _ => true, fun _ => .ok 9, 9⟩, ⟨true, fun _ => true, fun _ => .ok 9, 9⟩,
       ⟨true, fun _ => true, fun _ => .ok 9, 9⟩, ⟨true, fun _ => true, fun _ => .ok 9, 9⟩]
      (initSt [3]) = some (0, ⟨2, true, [⟨3, 2, 2, true, [65, 66]⟩]⟩) ∧
    ∀ si ∈ (⟨2, true, [⟨3, 2, 2, true, [65, 66]⟩]⟩ : LoopSt).sinks, si.out = [65, 66] :=
  ⟨by decide,
   replicate_outputs_equal_input false 4 [65, 66] [3]
     [⟨true, fun _ => true, fun _ => .ok 9, 9⟩, ⟨true, fun _ => true, fun _ => .ok 9, 9⟩,
      ⟨true, fun _ => true, fun _ => .ok 9, 9⟩, ⟨true, fun _ => true, fun _ => .ok 9, 9⟩]
     ⟨2, true, [⟨3, 2, 2, true, [65, 66]⟩]⟩ (by decide) (by decide) (by decide) (by decide)⟩

/-- Claim C2 (code bug): invariant S1 (`pos_written ≤ pos_to_write ≤
source_pos_read`) is violated by a reachable allocation pass.  With
scatter mode, three idle write-ready sinks at position 0 and
`source_pos_read = 1` (entry state satisfies S1), the pass gives the
third eligible sink `pos_to_write = 2 > source_pos_read = 1`: the second
sink's assignment is `data_per_sink = 0`, which resets `data_to_assign`
to 0, so the `data_to_assign == 0` test (teebuff.c:241) hands the
remainder out again. -/
theorem s1_violated_after_alloc_pass :
    ∃ res, allocate_data_to_sinks true false 1024 (fun _ => 0) 1 [7, 8, 9]
        [⟨7, 0, 0, true, []⟩, ⟨8, 0, 0, true, []⟩, ⟨9, 0, 0, true, []⟩] = .ok res ∧
      ∃ si ∈ res, 1 < si.pos_to_write :=
  ⟨[⟨7, 0, 1, true, []⟩, ⟨8, 1, 1, true, []⟩, ⟨9, 1, 2, true, []⟩], by decide, by decide⟩

/-- Claim C3: the watermark handed to `memory_free` after a write pass is
exactly `min(pos_written over active sinks, source_pos_read)`: it is a
lower bound of every active sink's `pos_written`, bounded by
`source_pos_read`, attained at one of them (or equal to
`source_pos_read`, so inactive sinks contribute nothing), and therefore
every chunk index freed by `memory_free` lies strictly below every active
sink's current chunk `pos_written / B`. -/
theorem reclamation_watermark_safe (os ol : Bool) (B : Nat) (input : List UInt8)
    (spr : Nat) (fds : List Nat) (ocs : Nat → WriteOutcome) (files : List Sink)
    (r : SWOut) (h : sink_write os ol B input spr fds ocs files = .ok r) :
    (∀ si ∈ r.sinks, si.active = true → r.minPos ≤ si.pos_written) ∧
    r.minPos ≤ spr ∧
    (r.minPos = spr ∨ ∃ si ∈ r.sinks, si.active = true ∧ si.pos_written = r.minPos) ∧
    (∀ pb : Nat, ∀ i ∈ memory_free B pb r.minPos, ∀ si ∈ r.sinks,
      si.active = true → i < si.pos_written / B) := by
  have hmin : r.minPos = minPosOf spr r.sinks :=
    sink_write_ok_minPos os ol B input spr fds ocs files r h
  refine ⟨?_, ?_, ?_, ?_⟩
  · intro si hmem ha
    rw [hmin]
    exact minPosOf_le_mem r.sinks spr si hmem ha
  · rw [hmin]; exact minPosOf_le_init r.sinks spr
  · rw [hmin]
    rcases minPosOf_attained r.sinks spr with h1 | ⟨si, hm, ha, hpw⟩
    · exact Or.inl h1
    · exact Or.inr ⟨si, hm, ha, hpw⟩
  · intro pb i hi si hmem ha
    have h1 : i < r.minPos / B := by
      rw [memory_free] at hi
      have := List.mem_range'_1.mp hi
      omega
    have h2 : r.minPos / B ≤ si.pos_written / B := by
      apply Nat.div_le_div_right
      rw [hmin]
      exact minPosOf_le_mem r.sinks spr si hmem ha
    omega

/-- Concrete closed write pass instantiating C3: one sink, replicate
allocation to position 2, a full write; the watermark equals the sink's
new `pos_written`. -/
theorem reclamation_watermark_safe_witness :
    sink_write false false 4 [65, 66] 2 [3] (fun _ => .ok 9) [⟨3, 0, 0, true, []⟩] =
      .ok ⟨[⟨3, 2, 2, true, [65, 66]⟩], 2, 2, [(3, 2)]⟩ ∧
    ∀ si ∈ (⟨[⟨3, 2, 2, true, [65, 66]⟩], 2, 2, [(3, 2)]⟩ : SWOut).sinks,
      si.active = true →
        (⟨[⟨3, 2, 2, true, [65, 66]⟩], 2, 2, [(3, 2)]⟩ : SWOut).minPos ≤ si.pos_written :=
  ⟨by rfl,
   (reclamation_watermark_safe false false 4 [65, 66] 2 [3] (fun _ => .ok 9)
     [⟨3, 0, 0, true, []⟩] ⟨[⟨3, 2, 2, true, [65, 66]⟩], 2, 2, [(3, 2)]⟩ (by rfl)).1⟩

/-- Claim C4 (code bug): with scatter mode, three idle write-ready sinks
and one fresh byte (`available_data = 1`, `available_sinks = 3`, so
`data_per_sink = 1 / 3 = 0` — second conjunct), the claim says only the
first eligible sink receives the remainder byte and each subsequent one
receives 0 bytes; the code instead also assigns the remainder to the
third eligible sink (window `[1, 2)`, 1 byte beyond the read frontier),
because the second sink's zero assignment makes the `data_to_assign == 0`
"first file" test fire again, contradicting the comment at
teebuff.c:241. -/
theorem third_sink_gets_remainder_again :
    allocate_data_to_sinks true false 1024 (fun _ => 0) 1 [4, 5, 6]
      [⟨4, 0, 0, true, []⟩, ⟨5, 0, 0, true, []⟩, ⟨6, 0, 0, true, []⟩] =
      .ok [⟨4, 0, 1, true, []⟩, ⟨5, 1, 1, true, []⟩, ⟨6, 1, 2, true, []⟩] ∧
    (1 : Nat) / 3 = 0 := by decide

/-- Claim C5: in scatter+line mode with `available_data ≤ B/2` the
allocator uses the forward (reliable) scan for the first eligible sink:
(1) if `[pos_assigned, source_pos_read)` holds no newline, the sink's
assignment is deferred — `pos_to_write := pos_assigned` (zero bytes) — and
the pass returns with every subsequent sink untouched; (2) if some newline
has distance strictly greater than `data_per_sink` from `pos_assigned`,
the window ends just after the first such newline; (3) otherwise the
window ends just after the last newline before `source_pos_read`. -/
theorem reliable_line_scan_windows (byteAt : Nat → UInt8) (B spr : Nat) (fds : List Nat)
    (pre rest : List Sink) (si : Sink) (pa avs dps : Nat)
    (hpre : ∀ s ∈ pre, eligible fds s = false)
    (hsi : eligible fds si = true)
    (hpa : pa = posAssigned0 (pre ++ si :: rest))
    (havs : avs = availableSinks fds (pre ++ si :: rest))
    (hle : pa ≤ spr)
    (hsmall : spr - pa ≤ B / 2)
    (hdps : dps = (spr - pa) / avs) :
    ((∀ q, pa ≤ q → q < spr → byteAt q ≠ nl) →
      allocate_data_to_sinks true true B byteAt spr fds (pre ++ si :: rest) =
        .ok (pre ++ { si with pos_written := pa, pos_to_write := pa } :: rest)) ∧
    (∀ p, pa ≤ p → p < spr → byteAt p = nl → dps < p - pa →
      (∀ q, pa ≤ q → q < p → ¬(byteAt q = nl ∧ dps < q - pa)) →
      ∃ rest', allocate_data_to_sinks true true B byteAt spr fds (pre ++ si :: rest) =
        .ok (pre ++ { si with pos_written := pa, pos_to_write := p + 1 } :: rest')) ∧
    (∀ p, pa ≤ p → p < spr → byteAt p = nl →
      (∀ q, pa ≤ q → q < spr → byteAt q = nl → q ≤ p ∧ q - pa ≤ dps) →
      ∃ rest', allocate_data_to_sinks true true B byteAt spr fds (pre ++ si :: rest) =
        .ok (pre ++ { si with pos_written := pa, pos_to_write := p + 1 } :: rest')) := by
  have havs0 : ¬ availableSinks fds (pre ++ si :: rest) = 0 := by
    have := availableSinks_pos fds pre rest si hsi
    omega
  have hB2 : ¬ B / 2 < spr - pa := by omega
  have halloc : allocate_data_to_sinks true true B byteAt spr fds (pre ++ si :: rest) =
      allocScatter byteAt true B spr fds avs (spr - pa) dps (pre ++ si :: rest) pa 0 := by
    simp only [allocate_data_to_sinks]
    rw [if_neg (by simp), if_neg havs0, ← hpa, ← havs, ← hdps]
  have hstep : allocScatter byteAt true B spr fds avs (spr - pa) dps (si :: rest) pa 0 =
      match scanFwd byteAt pa dps spr with
      | .defer => .ok ({ si with pos_written := pa, pos_to_write := pa } :: rest)
      | .found q =>
        match allocScatter byteAt true B spr fds avs (spr - pa) dps rest q
            (nextDta avs (spr - pa) dps 0) with
        | .ok rest' => .ok ({ si with pos_written := pa, pos_to_write := q } :: rest')
        | .fatal c r => .fatal c r := by
    rw [allocScatter, if_pos hsi, if_pos rfl, if_neg hB2]
  refine ⟨?_, ?_, ?_⟩
  · intro hnone
    have hscan : scanFwd byteAt pa dps spr = .defer := by
      rw [scanFwd]
      exact scanFwdAux_no_nl_defer byteAt pa dps (spr - pa) pa
        (fun q h1 h2 => hnone q h1 (by omega))
    rw [halloc,
      allocScatter_skip byteAt true B spr fds avs (spr - pa) dps pre hpre (si :: rest) pa 0,
      hstep, hscan]
  · intro p hp1 hp2 hp3 hp4 hmin
    have hscan : scanFwd byteAt pa dps spr = .found (p + 1) := by
      rw [scanFwd]
      exact scanFwdAux_stop byteAt pa dps p (spr - pa) pa none hp1 (by omega) hp3 hp4 hmin
    obtain ⟨rest', hrest'⟩ := allocScatter_reliable_ok byteAt B spr fds avs (spr - pa) dps
      hB2 rest (p + 1) (nextDta avs (spr - pa) dps 0)
    refine ⟨rest', ?_⟩
    rw [halloc,
      allocScatter_skip byteAt true B spr fds avs (spr - pa) dps pre hpre (si :: rest) pa 0,
      hstep, hscan]
    simp only [hrest']
  · intro p hp1 hp2 hp3 hmax
    have hscan : scanFwd byteAt pa dps spr = .found (p + 1) := by
      rw [scanFwd]
      refine scanFwdAux_exhaust byteAt pa dps p (spr - pa) pa none hp1 (by omega) hp3 ?_ ?_
      · intro q h1 h2 h3
        have := hmax q h1 (by omega) h3
        omega
      · intro q h1 h2 hq
        have := hmax q (by omega) (by omega) hq
        omega
    obtain ⟨rest', hrest'⟩ := allocScatter_reliable_ok byteAt B spr fds avs (spr - pa) dps
      hB2 rest (p + 1) (nextDta avs (spr - pa) dps 0)
    refine ⟨rest', ?_⟩
    rw [halloc,
      allocScatter_skip byteAt true B spr fds avs (spr - pa) dps pre hpre (si :: rest) pa 0,
      hstep, hscan]
    simp only [hrest']

/-- Concrete closed instances of C5: a one-byte newline-free input defers
the single sink (zero assignment), and an all-lines input ending in a
newline assigns the window up to just past the last newline. -/
theorem reliable_line_scan_windows_witness :
    allocate_data_to_sinks true true 4 (fun p => [65].getD p 0) 1 [3]
      [⟨3, 0, 0, true, []⟩] = .ok [⟨3, 0, 0, true, []⟩] ∧
    ∃ rest', allocate_data_to_sinks true true 100 (fun p => [97, 97, 10, 98, 10].getD p 0)
      5 [3] [⟨3, 0, 0, true, []⟩] = .ok (⟨3, 0, 5, true, []⟩ :: rest') :=
  ⟨(reliable_line_scan_windows (fun p => [65].getD p 0) 4 1 [3] [] [] ⟨3, 0, 0, true, []⟩
      0 1 1 (fun s hs => absurd hs (List.not_mem_nil s)) (by decide) (by decide) (by decide)
      (by decide) (by decide) (by decide)).1
    (fun q h1 h2 => by
      have hq : q = 0 := by omega
      subst hq
      decide),
   (reliable_line_scan_windows (fun p => [97, 97, 10, 98, 10].getD p 0) 100 5 [3] [] []
      ⟨3, 0, 0, true, []⟩ 0 1 5 (fun s hs => absurd hs (List.not_mem_nil s)) (by decide)
      (by decide) (by decide) (by decide) (by decide) (by decide)).2.2 4
      (by decide) (by decide) (by decide)
      (fun q h1 h2 hq => ⟨by omega, by omega⟩)⟩

/-- Claim C6: in scatter+line mode with `available_data > B/2` the
allocator scans backward from `pos_assigned + data_to_assign - 1` for the
first eligible sink: if the region `[pos_assigned, pos_assigned +
data_to_assign)` holds no newline the process dies with exit code 1 and a
diagnostic giving the region size `data_to_assign - 1` (the C string at
teebuff.c:267 also advises increasing the buffer size); if the last
newline of the region is at `p`, the assigned window ends at `p + 1`. -/
theorem efficient_line_scan_windows (byteAt : Nat → UInt8) (B spr : Nat) (fds : List Nat)
    (pre rest : List Sink) (si : Sink) (pa avs dps dta : Nat)
    (hpre : ∀ s ∈ pre, eligible fds s = false)
    (hsi : eligible fds si = true)
    (hpa : pa = posAssigned0 (pre ++ si :: rest))
    (havs : avs = availableSinks fds (pre ++ si :: rest))
    (hle : pa ≤ spr)
    (hbig : B / 2 < spr - pa)
    (hdps : dps = (spr - pa) / avs)
    (hdta : dta = dps + (spr - pa) % avs) :
    ((∀ q, pa ≤ q → q < pa + dta → byteAt q ≠ nl) →
      allocate_data_to_sinks true true B byteAt spr fds (pre ++ si :: rest) =
        .fatal 1 (dta - 1)) ∧
    (∀ p, pa ≤ p → p < pa + dta → byteAt p = nl →
      (∀ q, p < q → q < pa + dta → byteAt q ≠ nl) →
      (∀ s ∈ rest, eligible fds s = false) →
      allocate_data_to_sinks true true B byteAt spr fds (pre ++ si :: rest) =
        .ok (pre ++ { si with pos_written := pa, pos_to_write := p + 1 } :: rest)) := by
  have havs0 : ¬ availableSinks fds (pre ++ si :: rest) = 0 := by
    have := availableSinks_pos fds pre rest si hsi
    omega
  have halloc : allocate_data_to_sinks true true B byteAt spr fds (pre ++ si :: rest) =
      allocScatter byteAt true B spr fds avs (spr - pa) dps (pre ++ si :: rest) pa 0 := by
    simp only [allocate_data_to_sinks]
    rw [if_neg (by simp), if_neg havs0, ← hpa, ← havs, ← hdps]
  have hnd : nextDta avs (spr - pa) dps 0 = dta := by
    rw [nextDta, if_pos rfl]
    exact hdta.symm
  have hstep : allocScatter byteAt true B spr fds avs (spr - pa) dps (si :: rest) pa 0 =
      match findNlBack byteAt pa (nextDta avs (spr - pa) dps 0) with
      | none => .fatal 1 (nextDta avs (spr - pa) dps 0 - 1)
      | some p =>
        match allocScatter byteAt true B spr fds avs (spr - pa) dps rest (p + 1)
            (nextDta avs (spr - pa) dps 0) with
        | .ok rest' => .ok ({ si with pos_written := pa, pos_to_write := p + 1 } :: rest')
        | .fatal c r => .fatal c r := by
    rw [allocScatter, if_pos hsi, if_pos rfl, if_pos hbig]
  refine ⟨?_, ?_⟩
  · intro hnone
    have hfb : findNlBack byteAt pa dta = none :=
      findNlBack_none byteAt pa dta (fun q h1 h2 => hnone q h1 h2)
    rw [halloc,
      allocScatter_skip byteAt true B spr fds avs (spr - pa) dps pre hpre (si :: rest) pa 0,
      hstep, hnd, hfb]
  · intro p hp1 hp2 hp3 hlast hrest
    have hfb : findNlBack byteAt pa dta = some p :=
      findNlBack_last byteAt pa dta p hp1 hp2 hp3 hlast
    have hrests : allocScatter byteAt true B spr fds avs (spr - pa) dps rest (p + 1) dta =
        .ok rest := by
      have hsk := allocScatter_skip byteAt true B spr fds avs (spr - pa) dps rest hrest []
        (p + 1) dta
      simpa [allocScatter] using hsk
    rw [halloc,
      allocScatter_skip byteAt true B spr fds avs (spr - pa) dps pre hpre (si :: rest) pa 0,
      hstep, hnd, hfb]
    simp only [hrests]

/-- Concrete closed instances of C6: a newline-free 3-byte region with
`B = 4` aborts with exit code 1 and region size 2; with a newline at
position 1 the single sink's window ends at 2. -/
theorem efficient_line_scan_windows_witness :
    allocate_data_to_sinks true true 4 (fun p => [65, 66, 67].getD p 0) 3 [3]
      [⟨3, 0, 0, true, []⟩] = .fatal 1 2 ∧
    allocate_data_to_sinks true true 4 (fun p => [65, 10, 67].getD p 0) 3 [3]
      [⟨3, 0, 0, true, []⟩] = .ok [⟨3, 0, 2, true, []⟩] :=
  ⟨(efficient_line_scan_windows (fun p => [65, 66, 67].getD p 0) 4 3 [3] [] []
      ⟨3, 0, 0, true, []⟩ 0 1 3 3 (fun s hs => absurd hs (List.not_mem_nil s)) (by decide)
      (by decide) (by decide) (by decide) (by decide) (by decide) (by decide)).1
    (fun q h1 h2 => by
      interval_cases q <;> decide),
   (efficient_line_scan_windows (fun p => [65, 10, 67].getD p 0) 4 3 [3] [] []
      ⟨3, 0, 0, true, []⟩ 0 1 3 3 (fun s hs => absurd hs (List.not_mem_nil s)) (by decide)
      (by decide) (by decide) (by decide) (by decide) (by decide) (by decide)).2 1
      (by decide) (by decide) (by decide)
      (fun q h1 h2 => by interval_cases q <;> decide)
      (fun s hs => absurd hs (List.not_mem_nil s))⟩

/-- Claim C7 (corrected), counterexample: the claim says no scheduling
pass in either mode modifies an inactive sink's `pos_to_write`, but the
replicate pass (teebuff.c:211-214) iterates over all sinks with no
`active` check: here an inactive sink's `pos_to_write` changes from 0
to 5. -/
theorem replicate_pass_modifies_inactive :
    allocate_data_to_sinks false false 4 (fun _ => 0) 5 [] [⟨3, 0, 0, false, []⟩] =
      .ok [⟨3, 0, 5, false, []⟩] := by decide

/-- Claim C7 (amended): an inactive sink is excluded from reclamation
(the watermark fold ignores it) and from scatter assignments — provided
its fd is not in the ready set, which the event loop guarantees since it
never watches inactive sinks (teebuff.c:433-437); the replicate pass,
however, does set every sink's `pos_to_write` to `source_pos_read`,
inactive sinks included, though no write is ever issued to them. -/
theorem inactive_sink_exclusion (B : Nat) (byteAt : Nat → UInt8) (ol : Bool) (spr : Nat)
    (fds : List Nat) (files : List Sink)
    (hfd : ∀ si ∈ files, si.active = false → fds.contains si.fd = false) :
    (∀ res, allocate_data_to_sinks true ol B byteAt spr fds files = .ok res →
      ∀ i si, files.get? i = some si → si.active = false → res.get? i = some si) ∧
    minPosOf spr files = minPosOf spr (files.filter fun si => si.active) ∧
    allocate_data_to_sinks false ol B byteAt spr fds files =
      .ok (files.map fun si => { si with pos_to_write := spr }) := by
  refine ⟨?_, minPosOf_filter_active files spr, by rw [allocate_data_to_sinks, if_pos rfl]⟩
  intro res h i si hget hina
  have hmem : si ∈ files := List.get?_mem hget
  have hne : eligible fds si = false := by
    rw [eligible, hfd si hmem hina]
    exact Bool.and_false _
  simp only [allocate_data_to_sinks] at h
  rw [if_neg (by simp)] at h
  by_cases havs : availableSinks fds files = 0
  · rw [if_pos havs] at h
    injection h with h'
    rw [← h']
    exact hget
  · rw [if_neg havs] at h
    exact allocScatter_preserves_noneligible byteAt ol B spr fds (availableSinks fds files)
      (spr - posAssigned0 files) ((spr - posAssigned0 files) / availableSinks fds files)
      files (posAssigned0 files) 0 res h i si hget hne

/-- Concrete closed instance of the amended C7: one active and one
inactive sink in scatter mode; the pass leaves the inactive sink (index 1)
untouched, and the watermark ignores its `pos_written`. -/
theorem inactive_sink_exclusion_witness :
    (∀ res, allocate_data_to_sinks true false 4 (fun _ => 0) 6 [3]
        [⟨3, 2, 2, true, []⟩, ⟨5, 1, 1, false, []⟩] = .ok res →
      ∀ i si, [(⟨3, 2, 2, true, []⟩ : Sink), ⟨5, 1, 1, false, []⟩].get? i = some si →
        si.active = false → res.get? i = some si) ∧
    minPosOf 6 [(⟨3, 2, 2, true, []⟩ : Sink), ⟨5, 1, 1, false, []⟩] =
      minPosOf 6 ([(⟨3, 2, 2, true, []⟩ : Sink), ⟨5, 1, 1, false, []⟩].filter
        fun si => si.active) ∧
    allocate_data_to_sinks false false 4 (fun _ => 0) 6 [3]
        [⟨3, 2, 2, true, []⟩, ⟨5, 1, 1, false, []⟩] =
      .ok ([(⟨3, 2, 2, true, []⟩ : Sink), ⟨5, 1, 1, false, []⟩].map
        fun si => { si with pos_to_write := 6 }) :=
  inactive_sink_exclusion 4 (fun _ => 0) false 6 [3]
    [⟨3, 2, 2, true, []⟩, ⟨5, 1, 1, false, []⟩] (by decide)

/-- Claim C8: in the write loop, a ready sink whose write fails with the
broken-pipe code only has its active flag cleared — `pos_written`,
`pos_to_write` and its delivered bytes are unchanged — and the pass still
completes normally (shown under the assumption that no write fails with a
different code); a ready sink whose write fails with any other code makes
the whole pass fatal with exit code 2. -/
theorem epipe_isolated_other_error_fatal :
    (∀ (input : List UInt8) (B : Nat) (fds : List Nat) (ocs : Nat → WriteOutcome)
      (sinks : List Sink) (i : Nat) (si : Sink),
      (∀ j, ocs j ≠ .werr) → sinks.get? i = some si → fds.contains si.fd = true →
      ocs i = .epipe →
      ∃ res w iss, sinkWriteGo input B fds ocs sinks 0 = .ok (res, w, iss) ∧
        res.get? i = some { si with active := false }) ∧
    (∀ (input : List UInt8) (B : Nat) (fds : List Nat) (ocs : Nat → WriteOutcome)
      (sinks : List Sink) (i : Nat) (si : Sink),
      sinks.get? i = some si → fds.contains si.fd = true → ocs i = .werr →
      sinkWriteGo input B fds ocs sinks 0 = .error 2) := by
  constructor
  · intro input B fds ocs sinks i si hw hget hfd hoc
    obtain ⟨res, w, iss, hgo, hlen, hpt, hiss⟩ :=
      sinkWriteGo_ok_pointwise input B fds ocs hw sinks 0
    refine ⟨res, w, iss, hgo, ?_⟩
    rw [hpt i, hget]
    have hm : si.fd ∈ fds := by simpa using hfd
    simp [Nat.zero_add, hoc, procSink, hm]
  · intro input B fds ocs sinks i si hget hfd hoc
    exact sinkWriteGo_werr_fatal input B fds ocs sinks 0 i si hget hfd
      (by rw [Nat.zero_add]; exact hoc)

/-- Concrete closed instances of C8: a one-sink pass where the write gets
EPIPE deactivates the sink in place; the same pass with a different write
error exits 2. -/
theorem epipe_isolated_other_error_fatal_witness :
    (∃ res w iss, sinkWriteGo [] 4 [3] (fun _ => .epipe) [⟨3, 1, 2, true, []⟩] 0 =
      .ok (res, w, iss) ∧ res.get? 0 = some ⟨3, 1, 2, false, []⟩) ∧
    sinkWriteGo [] 4 [3] (fun _ => .werr) [⟨3, 1, 2, true, []⟩] 0 = .error 2 :=
  ⟨epipe_isolated_other_error_fatal.1 [] 4 [3] (fun _ => .epipe) [⟨3, 1, 2, true, []⟩] 0
     ⟨3, 1, 2, true, []⟩ (fun j h => WriteOutcome.noConfusion h) (by decide) (by decide)
     (by decide),
   epipe_isolated_other_error_fatal.2 [] 4 [3] (fun _ => .werr) [⟨3, 1, 2, true, []⟩] 0
     ⟨3, 1, 2, true, []⟩ (by decide) (by decide) (by decide)⟩

/-- Claim C9 (corrected), counterexample: the claim says a write-ready
sink with `pos_written == pos_to_write` (here, a sink whose line-mode
assignment was deferred) has no write issued to it, but the write loop
(teebuff.c:332-338) has no such guard: the pass issues one `write(2)`
with a zero-length window, recorded as `(3, 0)` in the issued list. -/
theorem zero_length_write_issued :
    sink_write true true 4 [65] 1 [3] (fun _ => .ok 0) [⟨3, 0, 0, true, []⟩] =
      .ok ⟨[⟨3, 0, 0, true, []⟩], 0, 0, [(3, 0)]⟩ := by rfl

/-- Claim C9 (amended): the write loop issues exactly one write per
write-ready sink — in registration order, with window size
`sink_buffer_size` and no `pos_written < pos_to_write` guard — and a
ready sink whose positions are equal gets a zero-length window, so the
write transfers nothing and the sink is unchanged; non-ready sinks get no
write at all. -/
theorem write_issued_iff_ready (input : List UInt8) (B : Nat) (fds : List Nat)
    (ocs : Nat → WriteOutcome) (sinks : List Sink)
    (hw : ∀ j, ocs j ≠ .werr) :
    ∃ res w iss, sinkWriteGo input B fds ocs sinks 0 = .ok (res, w, iss) ∧
      iss = (sinks.filter fun si => fds.contains si.fd).map
        (fun si => (si.fd, sink_buffer_size B si)) ∧
      ∀ i si n, sinks.get? i = some si → fds.contains si.fd = true →
        si.pos_written = si.pos_to_write → ocs i = .ok n → res.get? i = some si := by
  obtain ⟨res, w, iss, hgo, hlen, hpt, hiss⟩ :=
    sinkWriteGo_ok_pointwise input B fds ocs hw sinks 0
  refine ⟨res, w, iss, hgo, hiss, ?_⟩
  intro i si n hget hfd heq hoc
  rw [hpt i, hget]
  have hm : si.fd ∈ fds := by simpa using hfd
  have hbs : sink_buffer_size B si = 0 := by
    rw [sink_buffer_size]
    omega
  simp [procSink, hm, Nat.zero_add, hoc, hbs]

/-- Concrete closed instance of the amended C9: the deferred idle sink of
the counterexample, seen at the write-loop level. -/
theorem write_issued_iff_ready_witness :
    ∃ res w iss, sinkWriteGo [65] 4 [3] (fun _ => .ok 0) [⟨3, 0, 0, true, []⟩] 0 =
      .ok (res, w, iss) ∧
      iss = ([(⟨3, 0, 0, true, []⟩ : Sink)].filter fun si => [3].contains si.fd).map
        (fun si => (si.fd, sink_buffer_size 4 si)) ∧
      ∀ i si n, [(⟨3, 0, 0, true, []⟩ : Sink)].get? i = some si →
        [3].contains si.fd = true → si.pos_written = si.pos_to_write →
        (fun _ => WriteOutcome.ok 0) i = .ok n → res.get? i = some si :=
  write_issued_iff_ready [65] 4 [3] (fun _ => .ok 0) [⟨3, 0, 0, true, []⟩]
    (fun j h => WriteOutcome.noConfusion h)

/-- Claim C10: invoked with zero output file arguments the program still
runs the event loop (in any mode), consumes standard input to end of
file, writes nowhere (there are no sinks), and exits with status 0. -/
theorem no_sinks_still_drains (os ol : Bool) (B : Nat) (input : List UInt8)
    (choices : List Choice)
    (hB : 1 ≤ B)
    (hc : ∀ c ∈ choices, c.srcReady = true ∧ 1 ≤ c.readAmount)
    (hlen : 2 * input.length + 2 ≤ choices.length) :
    ∃ sF, runLoop os ol B input choices (initSt []) = some (0, sF) ∧
      sF.spr = input.length ∧ sF.sinks = [] := by
  refine runLoop_no_sinks_drains os ol B input hB choices (initSt []) hc rfl (Nat.zero_le _)
    (fun hh => absurd hh (by simp [initSt])) ?_
  show 2 * (input.length - 0) + (if false then 1 else 2) ≤ choices.length
  simpa using hlen

/-- Concrete closed instance of C10: one input byte, no sinks, four loop
iterations: read 1, read 0 (EOF), terminate with status 0. -/
theorem no_sinks_still_drains_witness :
    ∃ sF, runLoop true true 4 [65]
      [⟨true, fun _ => true, fun _ => .ok 0, 1⟩, ⟨true, fun _ => true, fun _ => .ok 0, 1⟩,
       ⟨true, fun _ => true, fun _ => .ok 0, 1⟩, ⟨true, fun _ => true, fun _ => .ok 0, 1⟩]
      (initSt []) = some (0, sF) ∧ sF.spr = [65].length ∧ sF.sinks = [] :=
  no_sinks_still_drains true true 4 [65]
    [⟨true, fun _ => true, fun _ => .ok 0, 1⟩, ⟨true, fun _ => true, fun _ => .ok 0, 1⟩,
     ⟨true, fun _ => true, fun _ => .ok 0, 1⟩, ⟨true, fun _ => true, fun _ => .ok 0, 1⟩]
    (by decide) (by decide) (by decide)

end Teebuff
